import Mathlib

/-!
# Descriptor table of the VLC Lua network bindings (modules/lua/libs/net.c)

Shallow embedding of the descriptor virtualisation layer:
vlclua_fd_init, vlclua_fd_destroy, vlclua_fd_map, vlclua_fd_map_safe,
vlclua_fd_get, vlclua_fd_get_lua, vlclua_fd_unmap, vlclua_fd_unmap_safe and of
the callers vlclua_net_listen_tcp, vlclua_net_accept, vlclua_net_connect_tcp
and vlclua_net_close.

Conventions of the embedding
* a C int is an Int in the range INT_MIN..INT_MAX (predicate is_int); a C
  unsigned is a Nat; the conversions (unsigned)x and unsigned-to-int are
  to_unsigned and to_int (reduction modulo 2^32);
* the heap block sys->fdv is the list of its cells, sys->fdc is a Nat;
* calls to the provider (net_Close, net_ListenClose) are recorded, in order,
  in a list of Call values;
* free(sys->fdv) is recorded by the block it releases; it assigns no field;
* a failed assert (builds without NDEBUG) aborts the program: functions that
  contain an assert return an Option, none being the abort;
* the outcome of realloc is an input (realloc_ok).
-/

namespace VlcLuaNet

/-! ## C scalars -/

/-- Predicate: the value is representable as a C int (32 bits). -/
def is_int (x : Int) : Prop := -2147483648 ≤ x ∧ x ≤ 2147483647

instance (x : Int) : Decidable (is_int x) := by
  unfold is_int; exact inferInstance

/-- Conversion (unsigned)x of a C int. -/
def to_unsigned (x : Int) : Nat := (x % 4294967296).toNat

/-- Conversion of an unsigned value to int (two's complement). -/
def to_int (u : Nat) : Int :=
  if u % 4294967296 < 2147483648 then Int.ofNat (u % 4294967296)
  else Int.ofNat (u % 4294967296) - 4294967296

/-! ## State -/

/-- The two fields of intf_sys_t used by the descriptor table: the cells of
the heap block fdv and the count fdc. -/
structure intf_sys_t where
  fdv : List Int
  fdc : Nat
deriving DecidableEq, Repr

/-- Calls made to the connection provider. -/
inductive Call where
  | net_Close (fd : Int)
  | net_ListenClose (pi_fd : List Int)
deriving DecidableEq, Repr

/-- How a Lua C function ends: by raising an error (luaL_error) or by
returning a number of results. -/
inductive LuaReturn where
  | luaL_error
  | results (n : Nat)
deriving DecidableEq, Repr

/-- The block holds at least fdc cells (memory validity of fdv[0..fdc-1]). -/
def wf (sys : intf_sys_t) : Prop := sys.fdc ≤ sys.fdv.length

instance (sys : intf_sys_t) : Decidable (wf sys) := by
  unfold wf; exact inferInstance

/-- The tracked entries: the cells fdv[0], ..., fdv[fdc-1]. -/
def entries (sys : intf_sys_t) : List Int := sys.fdv.take sys.fdc

/-! ## libc -/

/-- The block after a successful realloc to n cells: the first cells are kept,
new cells (indeterminate in C) read 0 here; they are written before any read. -/
def realloc (block : List Int) (n : Nat) : List Int :=
  block.take n ++ List.replicate (n - block.length) 0

/-- The block after memmove(block + dst, block + src, n cells). -/
def memmove (block : List Int) (dst src n : Nat) : List Int :=
  block.take dst ++ (block.drop src).take n ++ block.drop (dst + n)

/-! ## The descriptor table -/

/-- vlclua_fd_init: fdv = NULL, fdc = 0. -/
def vlclua_fd_init (_sys : intf_sys_t) : intf_sys_t :=
  { fdv := [], fdc := 0 }

/-- The loop of vlclua_fd_destroy from index i with n iterations left:
net_Close(fdv[i]) for each i. -/
def destroy_loop (sys : intf_sys_t) : Nat → Nat → List Call
  | 0, _ => []
  | n + 1, i => Call.net_Close (sys.fdv.getD i 0) :: destroy_loop sys n (i + 1)

/-- What vlclua_fd_destroy leaves behind: the fields of sys after the call, the
provider calls in order, and the block handed to free. -/
structure destroy_result where
  sys : intf_sys_t
  calls : List Call
  freed : List Int
deriving DecidableEq, Repr

/-- vlclua_fd_destroy: closes fdv[0..fdc-1] in order, then calls free(sys->fdv).
Neither sys->fdv nor sys->fdc is assigned: the fields are returned as they were
(fdv now dangling, its cells no longer valid to read). -/
def vlclua_fd_destroy (sys : intf_sys_t) : destroy_result :=
  { sys := sys, calls := destroy_loop sys sys.fdc 0, freed := sys.fdv }

/-- The assertion loop for (i...) assert(fdv[i] != fd), from index i with n
iterations left; false when an assert fails. -/
def assert_loop (sys : intf_sys_t) (fd : Int) : Nat → Nat → Bool
  | 0, _ => true
  | n + 1, i => if sys.fdv.getD i 0 ≠ fd then assert_loop sys fd n (i + 1) else false

/-- vlclua_fd_map. The flag ndebug says whether NDEBUG is defined (asserts
compiled out); realloc_ok is the outcome of realloc. Result none: an assert
failed. Otherwise the new state and the returned int. -/
def vlclua_fd_map (ndebug realloc_ok : Bool) (sys : intf_sys_t) (fd : Int) :
    Option (intf_sys_t × Int) :=
  if to_unsigned fd < 3 then some (sys, -1)
  else if !ndebug && !assert_loop sys fd sys.fdc 0 then none
  else if sys.fdc ≥ 64 then some (sys, -1)
  else if !realloc_ok then some (sys, -1)
  else
    let fdv := realloc sys.fdv (sys.fdc + 1)
    let fdv := fdv.set sys.fdc fd
    let fd := to_int (3 + sys.fdc)
    some ({ fdv := fdv, fdc := sys.fdc + 1 }, fd)

/-- vlclua_fd_map_safe: on failure of vlclua_fd_map the descriptor is closed. -/
def vlclua_fd_map_safe (ndebug realloc_ok : Bool) (sys : intf_sys_t) (fd : Int) :
    Option (intf_sys_t × Int × List Call) :=
  match vlclua_fd_map ndebug realloc_ok sys fd with
  | none => none
  | some (sys1, luafd) =>
    some (sys1, luafd, if luafd = -1 then [Call.net_Close fd] else [])

/-- vlclua_fd_get. -/
def vlclua_fd_get (sys : intf_sys_t) (idx : Nat) : Int :=
  if idx < 3 then to_int idx
  else
    let idx := idx - 3
    if idx < sys.fdc then sys.fdv.getD idx 0 else -1

/-- The search loop of vlclua_fd_get_lua from index i with n iterations left. -/
def get_lua_loop (sys : intf_sys_t) (fd : Int) : Nat → Nat → Int
  | 0, _ => -1
  | n + 1, i => if sys.fdv.getD i 0 = fd then to_int (3 + i) else get_lua_loop sys fd n (i + 1)

/-- vlclua_fd_get_lua. -/
def vlclua_fd_get_lua (sys : intf_sys_t) (fd : Int) : Int :=
  if to_unsigned fd < 3 then fd
  else get_lua_loop sys fd sys.fdc 0

/-- vlclua_fd_unmap. Result none: the closing assert failed (builds without
NDEBUG). -/
def vlclua_fd_unmap (ndebug : Bool) (sys : intf_sys_t) (idx : Nat) : Option intf_sys_t :=
  if idx < 3 then some sys
  else
    let idx := idx - 3
    if idx ≥ sys.fdc then some sys
    else
      let fd := sys.fdv.getD idx 0
      let fdc := sys.fdc - 1
      let fdv := memmove sys.fdv idx (idx + 1) (fdc - idx)
      let sys1 : intf_sys_t := { fdv := fdv, fdc := fdc }
      if !ndebug && !assert_loop sys1 fd sys1.fdc 0 then none
      else some sys1

/-- vlclua_fd_unmap_safe. -/
def vlclua_fd_unmap_safe (ndebug : Bool) (sys : intf_sys_t) (idx : Nat) :
    Option (intf_sys_t × List Call) :=
  let fd := vlclua_fd_get sys idx
  match vlclua_fd_unmap ndebug sys idx with
  | none => none
  | some sys1 => some (sys1, if fd ≠ -1 then [Call.net_Close fd] else [])

/-! ## Callers in the Lua API -/

/-- The rollback loop of vlclua_net_listen_tcp,
while (i > 0) vlclua_fd_unmap(L, vlclua_fd_get_lua(L, pi_fd[--i])).
The array pi_fd is the list of its cells; a read past the end of the list
yields the terminator -1. -/
def listen_rollback_loop (ndebug : Bool) (pi_fd : List Int) :
    Nat → intf_sys_t → Option intf_sys_t
  | 0, sys => some sys
  | i + 1, sys =>
    match vlclua_fd_unmap ndebug sys
        (to_unsigned (vlclua_fd_get_lua sys (pi_fd.getD i (-1)))) with
    | none => none
    | some sys1 => listen_rollback_loop ndebug pi_fd i sys1

/-- The admission loop of vlclua_net_listen_tcp from index i, with at most n
iterations (none when n runs out or an assert fails). The outcome of the
realloc of iteration i is realloc_ok i. -/
def listen_map_loop (ndebug : Bool) (realloc_ok : Nat → Bool) (pi_fd : List Int) :
    Nat → Nat → intf_sys_t → Option (intf_sys_t × List Call × LuaReturn)
  | 0, _, _ => none
  | n + 1, i, sys =>
    if pi_fd.getD i (-1) = -1 then some (sys, [], LuaReturn.results 1)
    else
      match vlclua_fd_map ndebug (realloc_ok i) sys (pi_fd.getD i (-1)) with
      | none => none
      | some (sys1, r) =>
        if r = -1 then
          match listen_rollback_loop ndebug pi_fd i sys1 with
          | none => none
          | some sys2 =>
            some (sys2, [Call.net_ListenClose pi_fd], LuaReturn.luaL_error)
        else listen_map_loop ndebug realloc_ok pi_fd n (i + 1) sys1

/-- vlclua_net_listen_tcp. The argument listen is the result of net_ListenTCP:
none for NULL, otherwise the cells of the array before its terminator. -/
def vlclua_net_listen_tcp (ndebug : Bool) (realloc_ok : Nat → Bool) (sys : intf_sys_t)
    (listen : Option (List Int)) : Option (intf_sys_t × List Call × LuaReturn) :=
  match listen with
  | none => some (sys, [], LuaReturn.luaL_error)
  | some pi_fd => listen_map_loop ndebug realloc_ok pi_fd (pi_fd.length + 1) 0 sys

/-- vlclua_net_accept: i_fd is the result of net_Accept; the integer pushed to
the script is the second component. -/
def vlclua_net_accept (ndebug realloc_ok : Bool) (sys : intf_sys_t) (i_fd : Int) :
    Option (intf_sys_t × Int × List Call) :=
  vlclua_fd_map_safe ndebug realloc_ok sys i_fd

/-- vlclua_net_connect_tcp: i_fd is the result of net_Connect. -/
def vlclua_net_connect_tcp (ndebug realloc_ok : Bool) (sys : intf_sys_t) (i_fd : Int) :
    Option (intf_sys_t × Int × List Call) :=
  vlclua_fd_map_safe ndebug realloc_ok sys i_fd

/-- vlclua_net_close: the int argument of the script is converted to unsigned. -/
def vlclua_net_close (ndebug : Bool) (sys : intf_sys_t) (i_fd : Int) :
    Option (intf_sys_t × List Call) :=
  vlclua_fd_unmap_safe ndebug sys (to_unsigned i_fd)

/-! ## Sequences of calls -/

/-- Calls vlclua_fd_map on each descriptor of the list in order (realloc
succeeding) and collects the returned values. -/
def map_seq (ndebug : Bool) : intf_sys_t → List Int → Option (intf_sys_t × List Int)
  | sys, [] => some (sys, [])
  | sys, fd :: fds =>
    match vlclua_fd_map ndebug true sys fd with
    | none => none
    | some (sys1, v) =>
      match map_seq ndebug sys1 fds with
      | none => none
      | some (sys2, vs) => some (sys2, v :: vs)

/-- States reachable from vlclua_fd_init by calls of vlclua_fd_map on a
descriptor that is not tracked, of vlclua_fd_unmap and of vlclua_fd_unmap_safe. -/
inductive Reachable (ndebug : Bool) : intf_sys_t → Prop
  | init (s0 : intf_sys_t) : Reachable ndebug (vlclua_fd_init s0)
  | map (sys sys1 : intf_sys_t) (fd v : Int) (realloc_ok : Bool) :
      Reachable ndebug sys → fd ∉ entries sys →
      vlclua_fd_map ndebug realloc_ok sys fd = some (sys1, v) → Reachable ndebug sys1
  | unmap (sys sys1 : intf_sys_t) (idx : Nat) :
      Reachable ndebug sys →
      vlclua_fd_unmap ndebug sys idx = some sys1 → Reachable ndebug sys1
  | unmap_safe (sys sys1 : intf_sys_t) (idx : Nat) (calls : List Call) :
      Reachable ndebug sys →
      vlclua_fd_unmap_safe ndebug sys idx = some (sys1, calls) → Reachable ndebug sys1

/-- The descriptor is one of the reserved values 0, 1, 2. -/
def reserved (fd : Int) : Prop := fd = 0 ∨ fd = 1 ∨ fd = 2

instance (fd : Int) : Decidable (reserved fd) := by
  unfold reserved; exact inferInstance

/-! ## Lemmas on the C scalars -/

theorem to_unsigned_lt_three (fd : Int) (h : is_int fd) :
    to_unsigned fd < 3 ↔ reserved fd := by
  unfold to_unsigned is_int reserved at *
  omega

theorem to_int_of_lt (u : Nat) (h : u < 2147483648) : to_int u = (u : Int) := by
  unfold to_int
  have h1 : u % 4294967296 = u := Nat.mod_eq_of_lt (by omega)
  simp [h1, h]

theorem to_unsigned_natCast (u : Nat) (h : u < 4294967296) :
    to_unsigned (u : Int) = u := by
  unfold to_unsigned
  omega

theorem to_unsigned_neg_one : to_unsigned (-1) = 4294967295 := by
  decide

/-! ## Lemmas on the loops -/

theorem assert_loop_iff (sys : intf_sys_t) (fd : Int) :
    ∀ n i, assert_loop sys fd n i = true ↔ ∀ j, j < n → sys.fdv.getD (i + j) 0 ≠ fd := by
  intro n
  induction n with
  | zero => intro i; simp [assert_loop]
  | succ n ih =>
    intro i
    simp only [assert_loop]
    by_cases h : sys.fdv.getD i 0 = fd
    · simp only [h, ne_eq, not_true_eq_false, if_false]
      constructor
      · intro hf; exact absurd hf (by simp)
      · intro hall; exact absurd (by simpa using h) (hall 0 (Nat.succ_pos n))
    · rw [if_pos h, ih (i + 1)]
      constructor
      · intro hall j hj
        cases j with
        | zero => simpa using h
        | succ j =>
          have := hall j (by omega)
          rwa [show i + 1 + j = i + (j + 1) by omega] at this
      · intro hall j hj
        have := hall (j + 1) (by omega)
        rwa [show i + (j + 1) = i + 1 + j by omega] at this

theorem get_lua_loop_absent (sys : intf_sys_t) (fd : Int) :
    ∀ n i, (∀ j, j < n → sys.fdv.getD (i + j) 0 ≠ fd) → get_lua_loop sys fd n i = -1 := by
  intro n
  induction n with
  | zero => intro i _; rfl
  | succ n ih =>
    intro i hall
    have h0 : sys.fdv.getD i 0 ≠ fd := by simpa using hall 0 (Nat.succ_pos n)
    simp only [get_lua_loop, if_neg h0]
    apply ih
    intro j hj
    have := hall (j + 1) (by omega)
    rwa [show i + (j + 1) = i + 1 + j by omega] at this

theorem get_lua_loop_found (sys : intf_sys_t) (fd : Int) :
    ∀ n i k, k < n → sys.fdv.getD (i + k) 0 = fd →
      (∀ j, j < k → sys.fdv.getD (i + j) 0 ≠ fd) →
      get_lua_loop sys fd n i = to_int (3 + (i + k)) := by
  intro n
  induction n with
  | zero => intro i k hk; omega
  | succ n ih =>
    intro i k hk hfd hbefore
    cases k with
    | zero =>
      have h0 : sys.fdv.getD i 0 = fd := by simpa using hfd
      simp only [get_lua_loop, if_pos h0, Nat.add_zero]
    | succ k =>
      have h0 : sys.fdv.getD i 0 ≠ fd := by simpa using hbefore 0 (Nat.succ_pos k)
      simp only [get_lua_loop, if_neg h0]
      rw [ih (i + 1) k (by omega) (by rwa [show i + 1 + k = i + (k + 1) by omega])]
      · rw [show i + 1 + k = i + (k + 1) by omega]
      · intro j hj
        have := hbefore (j + 1) (by omega)
        rwa [show i + (j + 1) = i + 1 + j by omega] at this

theorem destroy_loop_eq (sys : intf_sys_t) :
    ∀ n i, i + n ≤ sys.fdv.length →
      destroy_loop sys n i = ((sys.fdv.drop i).take n).map Call.net_Close := by
  intro n
  induction n with
  | zero => intro i _; simp [destroy_loop]
  | succ n ih =>
    intro i h
    have hi : i < sys.fdv.length := by omega
    rw [List.drop_eq_getElem_cons hi]
    simp only [destroy_loop, List.take_succ_cons, List.map_cons]
    rw [ih (i + 1) (by omega)]
    simp [List.getElem?_eq_getElem hi]

/-! ## Lemmas on the tracked entries -/

theorem length_entries (sys : intf_sys_t) (h : wf sys) : (entries sys).length = sys.fdc := by
  unfold entries wf at *
  simp [List.length_take]; omega

theorem getD_eq_entries (sys : intf_sys_t) (h : wf sys) (k : Nat) (hk : k < sys.fdc) :
    (entries sys)[k]? = some (sys.fdv.getD k 0) := by
  unfold entries wf at *
  have hk1 : k < sys.fdv.length := by omega
  simp [List.getElem?_take, hk, List.getElem?_eq_getElem hk1]

theorem absent_iff (sys : intf_sys_t) (h : wf sys) (fd : Int) :
    (∀ j, j < sys.fdc → sys.fdv.getD (0 + j) 0 ≠ fd) ↔ fd ∉ entries sys := by
  constructor
  · intro hall hmem
    obtain ⟨k, hk, hkeq⟩ := List.getElem_of_mem hmem
    have hk1 : k < sys.fdc := by rwa [length_entries sys h] at hk
    have h2 := getD_eq_entries sys h k hk1
    rw [List.getElem?_eq_getElem hk] at h2
    have h3 := hall k hk1
    simp only [Nat.zero_add] at h3
    apply h3
    rw [← hkeq]
    exact (Option.some.inj h2).symm
  · intro hnot j hj heq
    apply hnot
    have h2 := getD_eq_entries sys h j hj
    simp only [Nat.zero_add] at heq
    rw [heq] at h2
    exact List.getElem?_mem h2

theorem assert_loop_entries (sys : intf_sys_t) (h : wf sys) (fd : Int) :
    assert_loop sys fd sys.fdc 0 = true ↔ fd ∉ entries sys := by
  rw [assert_loop_iff, absent_iff sys h]

/-! ## Lemmas on realloc and memmove -/

theorem realloc_set_entries (l : List Int) (c : Nat) (fd : Int) (h : c ≤ l.length) :
    ((realloc l (c + 1)).set c fd).take (c + 1) = l.take c ++ [fd] := by
  have hlen : (realloc l (c + 1)).length = c + 1 := by
    simp [realloc]; omega
  have htake : (realloc l (c + 1)).take c = l.take c := by
    unfold realloc
    rw [List.take_append_of_le_length (by simp; omega), List.take_take]
    simp
  have hdrop : (realloc l (c + 1)).drop (c + 1) = [] :=
    List.drop_of_length_le (by omega)
  rw [List.set_eq_take_append_cons_drop, if_pos (by omega), htake, hdrop]
  apply List.take_of_length_le
  simp

theorem realloc_set_length (l : List Int) (c : Nat) (fd : Int) :
    ((realloc l (c + 1)).set c fd).length = c + 1 := by
  simp [realloc]; omega

theorem memmove_entries (l : List Int) (c k : Nat) (hk : k < c) (h : c ≤ l.length) :
    (memmove l k (k + 1) (c - 1 - k)).take (c - 1) = (l.take c).eraseIdx k := by
  unfold memmove
  rw [List.eraseIdx_eq_take_drop_succ, List.take_take, List.drop_take,
    Nat.min_eq_left (by omega)]
  have hlen : (List.take k l ++ List.take (c - 1 - k) (List.drop (k + 1) l)).length = c - 1 := by
    simp; omega
  rw [List.take_left' hlen]
  rw [show c - (k + 1) = c - 1 - k by omega]

theorem memmove_length (l : List Int) (c k : Nat) (hk : k < c) (h : c ≤ l.length) :
    c - 1 ≤ (memmove l k (k + 1) (c - 1 - k)).length := by
  unfold memmove
  simp; omega

/-! ## Lemmas on vlclua_fd_map -/

theorem assert_pass (ndebug : Bool) (sys : intf_sys_t) (hwf : wf sys) (fd : Int)
    (hpre : ndebug = true ∨ fd ∉ entries sys) :
    (!ndebug && !assert_loop sys fd sys.fdc 0) = false := by
  rcases hpre with h | h
  · simp [h]
  · have := (assert_loop_entries sys hwf fd).2 h
    simp [this]

theorem map_reserved (ndebug realloc_ok : Bool) (sys : intf_sys_t) (fd : Int)
    (h : to_unsigned fd < 3) :
    vlclua_fd_map ndebug realloc_ok sys fd = some (sys, -1) := by
  simp [vlclua_fd_map, h]

theorem map_full (ndebug realloc_ok : Bool) (sys : intf_sys_t) (hwf : wf sys) (fd : Int)
    (hpre : ndebug = true ∨ fd ∉ entries sys) (hfull : 64 ≤ sys.fdc) :
    vlclua_fd_map ndebug realloc_ok sys fd = some (sys, -1) := by
  unfold vlclua_fd_map
  by_cases h3 : to_unsigned fd < 3
  · simp [h3]
  · rw [if_neg h3, assert_pass ndebug sys hwf fd hpre]
    simp [hfull]

theorem map_nomem (ndebug : Bool) (sys : intf_sys_t) (hwf : wf sys) (fd : Int)
    (hpre : ndebug = true ∨ fd ∉ entries sys) :
    vlclua_fd_map ndebug false sys fd = some (sys, -1) := by
  unfold vlclua_fd_map
  by_cases h3 : to_unsigned fd < 3
  · simp [h3]
  · rw [if_neg h3, assert_pass ndebug sys hwf fd hpre]
    simp

theorem map_append (ndebug : Bool) (sys : intf_sys_t) (hwf : wf sys) (fd : Int)
    (h3 : ¬ to_unsigned fd < 3) (hpre : ndebug = true ∨ fd ∉ entries sys)
    (hlt : sys.fdc < 64) :
    vlclua_fd_map ndebug true sys fd =
      some ({ fdv := (realloc sys.fdv (sys.fdc + 1)).set sys.fdc fd, fdc := sys.fdc + 1 },
        ((3 + sys.fdc : Nat) : Int)) := by
  unfold vlclua_fd_map
  rw [if_neg h3, assert_pass ndebug sys hwf fd hpre]
  have hge : ¬ sys.fdc ≥ 64 := by omega
  simp only [Bool.false_eq_true, if_false, if_neg hge, Bool.not_true]
  rw [to_int_of_lt (3 + sys.fdc) (by omega)]

theorem map_state_spec (sys : intf_sys_t) (hwf : wf sys) (fd : Int) :
    entries { fdv := (realloc sys.fdv (sys.fdc + 1)).set sys.fdc fd, fdc := sys.fdc + 1 }
        = entries sys ++ [fd] ∧
      wf { fdv := (realloc sys.fdv (sys.fdc + 1)).set sys.fdc fd, fdc := sys.fdc + 1 } := by
  constructor
  · exact realloc_set_entries sys.fdv sys.fdc fd hwf
  · unfold wf
    simp only [realloc_set_length]
    exact Nat.le_refl _

theorem map_inv (ndebug realloc_ok : Bool) (sys sys1 : intf_sys_t) (fd v : Int)
    (h : vlclua_fd_map ndebug realloc_ok sys fd = some (sys1, v)) :
    (sys1 = sys ∧ v = -1) ∨
    (sys.fdc < 64 ∧ ¬ to_unsigned fd < 3 ∧ realloc_ok = true ∧
      sys1 = { fdv := (realloc sys.fdv (sys.fdc + 1)).set sys.fdc fd, fdc := sys.fdc + 1 } ∧
      v = ((3 + sys.fdc : Nat) : Int)) := by
  unfold vlclua_fd_map at h
  split at h
  · left; simp at h; exact ⟨h.1.symm, h.2.symm⟩
  · split at h
    · exact absurd h (by simp)
    · split at h
      · left; simp at h; exact ⟨h.1.symm, h.2.symm⟩
      · split at h
        · left; simp at h; exact ⟨h.1.symm, h.2.symm⟩
        · right
          rename_i h3 _ hge hok
          have hlt : sys.fdc < 64 := by omega
          simp only [Option.some.injEq, Prod.mk.injEq] at h
          refine ⟨hlt, h3, by simpa using hok, h.1.symm, ?_⟩
          rw [← h.2, to_int_of_lt (3 + sys.fdc) (by omega)]

/-! ## Lemmas on vlclua_fd_unmap -/

theorem unmap_low (ndebug : Bool) (sys : intf_sys_t) (idx : Nat) (h : idx < 3) :
    vlclua_fd_unmap ndebug sys idx = some sys := by
  simp [vlclua_fd_unmap, h]

theorem unmap_high (ndebug : Bool) (sys : intf_sys_t) (idx : Nat) (h : sys.fdc ≤ idx - 3) :
    vlclua_fd_unmap ndebug sys idx = some sys := by
  unfold vlclua_fd_unmap
  by_cases h3 : idx < 3
  · simp [h3]
  · simp [h3, h]

theorem unmap_state_spec (sys : intf_sys_t) (hwf : wf sys) (k : Nat) (hk : k < sys.fdc) :
    entries { fdv := memmove sys.fdv k (k + 1) (sys.fdc - 1 - k), fdc := sys.fdc - 1 }
        = (entries sys).eraseIdx k ∧
      wf { fdv := memmove sys.fdv k (k + 1) (sys.fdc - 1 - k), fdc := sys.fdc - 1 } :=
  ⟨memmove_entries sys.fdv sys.fdc k hk hwf, memmove_length sys.fdv sys.fdc k hk hwf⟩

theorem unmap_inv (ndebug : Bool) (sys sys1 : intf_sys_t) (idx : Nat)
    (h : vlclua_fd_unmap ndebug sys idx = some sys1) :
    sys1 = sys ∨
    (3 ≤ idx ∧ idx - 3 < sys.fdc ∧
      sys1 = { fdv := memmove sys.fdv (idx - 3) (idx - 3 + 1) (sys.fdc - 1 - (idx - 3)),
               fdc := sys.fdc - 1 }) := by
  unfold vlclua_fd_unmap at h
  split at h
  · left; simpa using h.symm
  · simp only at h
    split at h
    · left; simpa using h.symm
    · split at h
      · exact absurd h (by simp)
      · right
        rename_i h3 hlt _
        exact ⟨by omega, by omega, by simpa using h.symm⟩

theorem unmap_evict (ndebug : Bool) (sys : intf_sys_t) (hwf : wf sys) (k : Nat)
    (hk : k < sys.fdc)
    (hpre : ndebug = true ∨ sys.fdv.getD k 0 ∉ (entries sys).eraseIdx k) :
    vlclua_fd_unmap ndebug sys (k + 3) =
      some { fdv := memmove sys.fdv k (k + 1) (sys.fdc - 1 - k), fdc := sys.fdc - 1 } := by
  unfold vlclua_fd_unmap
  have h3 : ¬ k + 3 < 3 := by omega
  have hge : ¬ k ≥ sys.fdc := by omega
  have hspec := unmap_state_spec sys hwf k hk
  have hassert := assert_pass ndebug _ hspec.2 (sys.fdv.getD k 0)
    (by rw [hspec.1]; exact hpre)
  simp only [if_neg h3, Nat.add_sub_cancel, if_neg hge]
  simp only [] at hassert
  rw [hassert]
  simp

theorem nodup_getD_not_mem_eraseIdx (sys : intf_sys_t) (hwf : wf sys) (k : Nat)
    (hk : k < sys.fdc) (hnd : (entries sys).Nodup) :
    sys.fdv.getD k 0 ∉ (entries sys).eraseIdx k := by
  intro hmem
  rw [List.mem_eraseIdx_iff_getElem?] at hmem
  obtain ⟨i, hik, hi⟩ := hmem
  have hkk := getD_eq_entries sys hwf k hk
  have hlen := length_entries sys hwf
  have hi1 : i < (entries sys).length := by
    by_contra hcon
    rw [List.getElem?_eq_none (by omega)] at hi
    exact absurd hi (by simp)
  have hk1 : k < (entries sys).length := by omega
  rw [List.getElem?_eq_getElem hi1] at hi
  rw [List.getElem?_eq_getElem hk1] at hkk
  have heq : (entries sys)[i] = (entries sys)[k] := by
    rw [Option.some.inj hi, Option.some.inj hkk]
  exact hik ((List.Nodup.getElem_inj_iff hnd).1 heq)

/-! ## Lemmas on vlclua_fd_get and vlclua_fd_get_lua -/

theorem get_eq (sys : intf_sys_t) (hwf : wf sys) (k : Nat) :
    vlclua_fd_get sys (k + 3) = ((entries sys)[k]?).getD (-1) := by
  unfold vlclua_fd_get
  have h3 : ¬ k + 3 < 3 := by omega
  simp only [if_neg h3, Nat.add_sub_cancel]
  by_cases hk : k < sys.fdc
  · rw [if_pos hk, getD_eq_entries sys hwf k hk]
    rfl
  · rw [if_neg hk, List.getElem?_eq_none (by rw [length_entries sys hwf]; omega)]
    rfl

theorem get_low (sys : intf_sys_t) (idx : Nat) (h : idx < 3) :
    vlclua_fd_get sys idx = (idx : Int) := by
  unfold vlclua_fd_get
  rw [if_pos h, to_int_of_lt idx (by omega)]

theorem get_lua_untracked (sys : intf_sys_t) (hwf : wf sys) (fd : Int)
    (h3 : ¬ to_unsigned fd < 3) (hnot : fd ∉ entries sys) :
    vlclua_fd_get_lua sys fd = -1 := by
  unfold vlclua_fd_get_lua
  rw [if_neg h3]
  exact get_lua_loop_absent sys fd sys.fdc 0 ((absent_iff sys hwf fd).2 hnot)

theorem get_lua_first (sys : intf_sys_t) (hwf : wf sys) (fd : Int)
    (h3 : ¬ to_unsigned fd < 3) (k : Nat) (hk : k < sys.fdc)
    (hat : (entries sys)[k]? = some fd)
    (hbefore : ∀ j, j < k → (entries sys)[j]? ≠ some fd) :
    vlclua_fd_get_lua sys fd = to_int (3 + k) := by
  unfold vlclua_fd_get_lua
  rw [if_neg h3]
  have h := get_lua_loop_found sys fd sys.fdc 0 k hk
    (by
      have h1 := getD_eq_entries sys hwf k hk
      rw [hat] at h1
      rw [Nat.zero_add]
      exact (Option.some.inj h1).symm)
    (by
      intro j hj heq
      have h1 := getD_eq_entries sys hwf j (by omega)
      rw [Nat.zero_add] at heq
      rw [heq] at h1
      exact hbefore j hj h1)
  rw [h, Nat.zero_add]

theorem get_at (sys : intf_sys_t) (hwf : wf sys) (k : Nat) (hk : k < sys.fdc) :
    (entries sys)[k]? = some (vlclua_fd_get sys (k + 3)) := by
  rw [get_eq sys hwf k, getD_eq_entries sys hwf k hk]
  rfl

theorem nodup_index_unique (l : List Int) (hnd : l.Nodup) (a b : Nat) (x : Int)
    (ha : l[a]? = some x) (hb : l[b]? = some x) : a = b := by
  obtain ⟨ha1, hax⟩ := List.getElem?_eq_some.1 ha
  obtain ⟨hb1, hbx⟩ := List.getElem?_eq_some.1 hb
  exact (List.Nodup.getElem_inj_iff hnd).1 (hax.trans hbx.symm)

theorem unmap_evict_ex (ndebug : Bool) (sys : intf_sys_t) (hwf : wf sys) (k : Nat)
    (hk : k < sys.fdc) (hpre : ndebug = true ∨ (entries sys).Nodup) :
    ∃ sys1, vlclua_fd_unmap ndebug sys (k + 3) = some sys1 ∧
      entries sys1 = (entries sys).eraseIdx k ∧ wf sys1 ∧ sys1.fdc = sys.fdc - 1 := by
  have hpre1 : ndebug = true ∨ sys.fdv.getD k 0 ∉ (entries sys).eraseIdx k := by
    rcases hpre with h | h
    · exact Or.inl h
    · exact Or.inr (nodup_getD_not_mem_eraseIdx sys hwf k hk h)
  obtain ⟨hent, hwf1⟩ := unmap_state_spec sys hwf k hk
  exact ⟨_, unmap_evict ndebug sys hwf k hk hpre1, hent, hwf1, rfl⟩

theorem map_append_ex (ndebug : Bool) (sys : intf_sys_t) (hwf : wf sys) (fd : Int)
    (h3 : ¬ to_unsigned fd < 3) (hpre : ndebug = true ∨ fd ∉ entries sys)
    (hlt : sys.fdc < 64) :
    ∃ sys1, vlclua_fd_map ndebug true sys fd = some (sys1, ((3 + sys.fdc : Nat) : Int)) ∧
      entries sys1 = entries sys ++ [fd] ∧ wf sys1 ∧ sys1.fdc = sys.fdc + 1 := by
  obtain ⟨hent, hwf1⟩ := map_state_spec sys hwf fd
  exact ⟨_, map_append ndebug sys hwf fd h3 hpre hlt, hent, hwf1, rfl⟩

theorem get_lua_last (sys : intf_sys_t) (hwf : wf sys) (E : List Int) (fd : Int)
    (hent : entries sys = E ++ [fd]) (h3 : ¬ to_unsigned fd < 3) (hnot : fd ∉ E)
    (hcap : sys.fdc ≤ 64) :
    vlclua_fd_get_lua sys fd = ((sys.fdc + 2 : Nat) : Int) := by
  have hlen : sys.fdc = E.length + 1 := by
    rw [← length_entries sys hwf, hent]; simp
  rw [get_lua_first sys hwf fd h3 E.length (by omega)
    (by rw [hent]; exact List.getElem?_concat_length E fd)
    (by
      intro j hj hcon
      rw [hent, List.getElem?_append_left hj] at hcon
      exact hnot (List.getElem?_mem hcon))]
  rw [to_int_of_lt _ (by omega)]
  congr 1
  omega

theorem unmap_last (ndebug : Bool) (sys : intf_sys_t) (hwf : wf sys) (E : List Int)
    (fd : Int) (hent : entries sys = E ++ [fd]) (hpre : ndebug = true ∨ fd ∉ E) :
    ∃ sys2, vlclua_fd_unmap ndebug sys (sys.fdc + 2) = some sys2 ∧
      entries sys2 = E ∧ wf sys2 ∧ sys2.fdc + 1 = sys.fdc := by
  have hlen : sys.fdc = E.length + 1 := by
    rw [← length_entries sys hwf, hent]; simp
  have herase : (entries sys).eraseIdx E.length = E := by
    rw [hent, List.eraseIdx_append_of_length_le (Nat.le_refl _)]
    simp
  have hlast : sys.fdv.getD E.length 0 = fd := by
    have h1 := getD_eq_entries sys hwf E.length (by omega)
    rw [hent, List.getElem?_concat_length] at h1
    exact (Option.some.inj h1).symm
  obtain ⟨hspec, hwf2⟩ := unmap_state_spec sys hwf E.length (by omega)
  have hun := unmap_evict ndebug sys hwf E.length (by omega)
    (by rw [herase, hlast]; exact hpre)
  rw [show E.length + 3 = sys.fdc + 2 by omega] at hun
  exact ⟨_, hun, by rw [hspec, herase], hwf2, by simp only []; omega⟩

theorem map_inv_ex (ndebug realloc_ok : Bool) (sys sys1 : intf_sys_t) (fd v : Int)
    (hwf : wf sys) (h : vlclua_fd_map ndebug realloc_ok sys fd = some (sys1, v)) :
    (sys1 = sys ∧ v = -1) ∨
    (sys.fdc < 64 ∧ ¬ to_unsigned fd < 3 ∧ realloc_ok = true ∧
      entries sys1 = entries sys ++ [fd] ∧ wf sys1 ∧ sys1.fdc = sys.fdc + 1 ∧
      v = ((3 + sys.fdc : Nat) : Int)) := by
  rcases map_inv ndebug realloc_ok sys sys1 fd v h with h1 | ⟨hlt, h3, hok, hs, hv⟩
  · exact Or.inl h1
  · obtain ⟨hent, hwf1⟩ := map_state_spec sys hwf fd
    rw [← hs] at hent hwf1
    exact Or.inr ⟨hlt, h3, hok, hent, hwf1, by rw [hs], hv⟩

theorem unmap_inv_ex (ndebug : Bool) (sys sys1 : intf_sys_t) (idx : Nat)
    (hwf : wf sys) (h : vlclua_fd_unmap ndebug sys idx = some sys1) :
    sys1 = sys ∨
    (3 ≤ idx ∧ idx - 3 < sys.fdc ∧ entries sys1 = (entries sys).eraseIdx (idx - 3) ∧
      wf sys1 ∧ sys1.fdc = sys.fdc - 1) := by
  rcases unmap_inv ndebug sys sys1 idx h with h1 | ⟨h3, hlt, hs⟩
  · exact Or.inl h1
  · obtain ⟨hent, hwf1⟩ := unmap_state_spec sys hwf (idx - 3) hlt
    rw [← hs] at hent hwf1
    exact Or.inr ⟨h3, hlt, hent, hwf1, by rw [hs]⟩

/-! ## Lemmas on sequences of admissions -/

theorem map_seq_spec (ndebug : Bool) :
    ∀ (fds : List Int) (sys : intf_sys_t), wf sys → sys.fdc + fds.length ≤ 64 →
      (∀ fd ∈ fds, ¬ to_unsigned fd < 3) → (entries sys ++ fds).Nodup →
      ∃ sys1, map_seq ndebug sys fds
          = some (sys1, (List.range' (3 + sys.fdc) fds.length).map Int.ofNat) ∧
        entries sys1 = entries sys ++ fds ∧ wf sys1 := by
  intro fds
  induction fds with
  | nil =>
    intro sys hwf _ _ _
    exact ⟨sys, by simp [map_seq], by simp, hwf⟩
  | cons fd fds ih =>
    intro sys hwf hlen h3 hnd
    have hfd : fd ∉ entries sys := by
      intro hmem
      have := (List.nodup_append.1 hnd).2.2
      exact this hmem (List.mem_cons_self fd fds)
    have hlt : sys.fdc < 64 := by simp at hlen; omega
    have hmap := map_append ndebug sys hwf fd (h3 fd (List.mem_cons_self fd fds))
      (Or.inr hfd) hlt
    have hspec := map_state_spec sys hwf fd
    obtain ⟨sys1, hseq, hent, hwf1⟩ := ih _ hspec.2
      (by simp at hlen ⊢; omega)
      (fun x hx => h3 x (List.mem_cons_of_mem fd hx))
      (by rw [hspec.1, List.append_assoc]; simpa using hnd)
    refine ⟨sys1, ?_, ?_, hwf1⟩
    · simp only [map_seq, hmap, hseq]
      simp [List.range', Nat.add_assoc]
    · rw [hent, hspec.1, List.append_assoc]
      rfl

/-! ## Lemmas on the loops of vlclua_net_listen_tcp -/

theorem nodup_not_mem_take (l : List Int) (hnd : l.Nodup) (i : Nat) (x : Int)
    (hx : l[i]? = some x) : x ∉ l.take i := by
  intro hmem
  obtain ⟨j, hj⟩ := List.mem_iff_getElem?.1 hmem
  rw [List.getElem?_take] at hj
  split at hj
  · have := nodup_index_unique l hnd j i x hj hx
    omega
  · exact absurd hj (by simp)

theorem take_succ_of_getElem? (l : List Int) (i : Nat) (x : Int) (hx : l[i]? = some x) :
    l.take (i + 1) = l.take i ++ [x] := by
  rw [List.take_succ, hx]
  rfl

theorem rollback_spec (ndebug : Bool) (pi_fd E : List Int) (hnd : pi_fd.Nodup)
    (hnew : ∀ fd ∈ pi_fd, fd ∉ E) :
    ∀ (i : Nat) (s : intf_sys_t), i ≤ pi_fd.length → wf s →
      entries s = E ++ pi_fd.take i → (0 < i → s.fdc ≤ 64) →
      (∀ fd ∈ pi_fd.take i, ¬ to_unsigned fd < 3) →
      ∃ s2, listen_rollback_loop ndebug pi_fd i s = some s2 ∧ entries s2 = E ∧ wf s2 := by
  intro i
  induction i with
  | zero =>
    intro s _ hwf hent _ _
    exact ⟨s, rfl, by simpa using hent, hwf⟩
  | succ i ih =>
    intro s hi hwf hent hcap hadm
    have hi1 : i < pi_fd.length := by omega
    have hx : pi_fd[i]? = some pi_fd[i] := List.getElem?_eq_getElem hi1
    have hget : pi_fd.getD i (-1) = pi_fd[i] := by
      rw [List.getD_eq_getElem?_getD, hx]; rfl
    have htake := take_succ_of_getElem? pi_fd i _ hx
    have hxmem : pi_fd[i] ∈ pi_fd := List.getElem_mem hi1
    have hxnew : pi_fd[i] ∉ E ++ pi_fd.take i := by
      intro hmem
      rcases List.mem_append.1 hmem with h | h
      · exact hnew _ hxmem h
      · exact nodup_not_mem_take pi_fd hnd i _ hx h
    have hent1 : entries s = (E ++ pi_fd.take i) ++ [pi_fd[i]] := by
      rw [hent, htake, List.append_assoc]
    have h3 : ¬ to_unsigned pi_fd[i] < 3 :=
      hadm _ (by rw [htake]; exact List.mem_append_right _ (List.mem_singleton_self _))
    have hc : s.fdc ≤ 64 := hcap (Nat.succ_pos i)
    have hlua := get_lua_last s hwf _ _ hent1 h3 hxnew hc
    obtain ⟨s2, hun, hent2, hwf2, hfdc2⟩ := unmap_last ndebug s hwf _ _ hent1 (Or.inr hxnew)
    obtain ⟨s3, hroll, hent3, hwf3⟩ := ih s2 (by omega) hwf2 hent2 (fun _ => by omega)
      (fun fd hfd => hadm fd (by rw [htake]; exact List.mem_append_left _ hfd))
    refine ⟨s3, ?_, hent3, hwf3⟩
    simp only [listen_rollback_loop, hget, hlua]
    rw [to_unsigned_natCast _ (by omega)]
    simp only [hun]
    exact hroll

theorem listen_loop_spec (ndebug : Bool) (realloc_ok : Nat → Bool) (pi_fd E : List Int)
    (hint : ∀ fd ∈ pi_fd, is_int fd) (hterm : ∀ fd ∈ pi_fd, fd ≠ -1) (hnd : pi_fd.Nodup)
    (hnew : ∀ fd ∈ pi_fd, fd ∉ E) :
    ∀ (n i : Nat) (s : intf_sys_t), i + n = pi_fd.length + 1 → i ≤ pi_fd.length → wf s →
      entries s = E ++ pi_fd.take i → (0 < i → s.fdc ≤ 64) →
      (∀ fd ∈ pi_fd.take i, ¬ to_unsigned fd < 3) →
      ∃ s1 calls ret, listen_map_loop ndebug realloc_ok pi_fd n i s = some (s1, calls, ret) ∧
        (ret = LuaReturn.luaL_error ↔ ∃ j, i ≤ j ∧ j < pi_fd.length ∧
          (reserved (pi_fd.getD j (-1)) ∨ 64 ≤ E.length + j ∨ realloc_ok j = false)) ∧
        (ret = LuaReturn.luaL_error →
          entries s1 = E ∧ wf s1 ∧ calls = [Call.net_ListenClose pi_fd]) ∧
        (ret ≠ LuaReturn.luaL_error →
          entries s1 = E ++ pi_fd ∧ wf s1 ∧ calls = [] ∧ ret = LuaReturn.results 1) := by
  intro n
  induction n with
  | zero => intro i s hin hi; omega
  | succ n ih =>
    intro i s hin hi hwf hent hcap hadm
    have hfdc : s.fdc = E.length + i := by
      rw [← length_entries s hwf, hent, List.length_append, List.length_take]
      omega
    by_cases hend : i = pi_fd.length
    · have hget : pi_fd.getD i (-1) = -1 := by
        rw [List.getD_eq_getElem?_getD, List.getElem?_eq_none (by omega)]; rfl
      refine ⟨s, [], LuaReturn.results 1, by simp only [listen_map_loop, hget, if_true],
        ?_, ?_, ?_⟩
      · constructor
        · intro h; exact absurd h (by simp)
        · rintro ⟨j, h1, h2, _⟩; omega
      · intro h; exact absurd h (by simp)
      · intro _
        exact ⟨by rw [hent, hend, List.take_length], hwf, rfl, rfl⟩
    · have hi1 : i < pi_fd.length := by omega
      have hx : pi_fd[i]? = some pi_fd[i] := List.getElem?_eq_getElem hi1
      have hget : pi_fd.getD i (-1) = pi_fd[i] := by
        rw [List.getD_eq_getElem?_getD, hx]; rfl
      have htake := take_succ_of_getElem? pi_fd i _ hx
      have hxmem : pi_fd[i] ∈ pi_fd := List.getElem_mem hi1
      have hxne : pi_fd[i] ≠ -1 := hterm _ hxmem
      have hxnew : pi_fd[i] ∉ entries s := by
        rw [hent]
        intro hmem
        rcases List.mem_append.1 hmem with h | h
        · exact hnew _ hxmem h
        · exact nodup_not_mem_take pi_fd hnd i _ hx h
      by_cases hfail : reserved pi_fd[i] ∨ 64 ≤ E.length + i ∨ realloc_ok i = false
      · have hmap : vlclua_fd_map ndebug (realloc_ok i) s pi_fd[i] = some (s, -1) := by
          rcases hfail with h | h | h
          · exact map_reserved ndebug _ s _ ((to_unsigned_lt_three _ (hint _ hxmem)).2 h)
          · exact map_full ndebug _ s hwf _ (Or.inr hxnew) (by omega)
          · rw [h]; exact map_nomem ndebug s hwf _ (Or.inr hxnew)
        obtain ⟨s2, hroll, hent2, hwf2⟩ :=
          rollback_spec ndebug pi_fd E hnd hnew i s hi hwf hent hcap hadm
        refine ⟨s2, [Call.net_ListenClose pi_fd], LuaReturn.luaL_error, ?_, ?_, ?_, ?_⟩
        · simp only [listen_map_loop, hget, if_neg hxne, hmap, if_true, hroll]
        · constructor
          · intro _
            exact ⟨i, Nat.le_refl i, hi1, by rw [hget]; exact hfail⟩
          · intro _; rfl
        · intro _; exact ⟨hent2, hwf2, rfl⟩
        · intro h; exact absurd rfl h
      · have hres : ¬ reserved pi_fd[i] := fun h => hfail (Or.inl h)
        have hlt : ¬ 64 ≤ E.length + i := fun h => hfail (Or.inr (Or.inl h))
        have hok : realloc_ok i = true := by
          cases hr : realloc_ok i
          · exact absurd (Or.inr (Or.inr hr)) hfail
          · rfl
        have h3 : ¬ to_unsigned pi_fd[i] < 3 :=
          fun h => hres ((to_unsigned_lt_three _ (hint _ hxmem)).1 h)
        obtain ⟨s1, hmap, hent1, hwf1, hfdc1⟩ :=
          map_append_ex ndebug s hwf _ h3 (Or.inr hxnew) (by omega)
        have hvne : ((3 + s.fdc : Nat) : Int) ≠ -1 := by omega
        obtain ⟨s2, calls, ret, hloop, hiff, herr, hsucc⟩ := ih (i + 1) s1 (by omega)
          (by omega) hwf1 (by rw [hent1, hent, htake, List.append_assoc])
          (fun _ => by omega)
          (by
            intro fd hfd
            rw [htake] at hfd
            rcases List.mem_append.1 hfd with h | h
            · exact hadm fd h
            · rw [List.mem_singleton.1 h]; exact h3)
        refine ⟨s2, calls, ret, ?_, ?_, herr, hsucc⟩
        · simp only [listen_map_loop, hget, if_neg hxne, hok, hmap, if_neg hvne]
          exact hloop
        · rw [hiff]
          constructor
          · rintro ⟨j, hj1, hj2, hj3⟩
            exact ⟨j, by omega, hj2, hj3⟩
          · rintro ⟨j, hj1, hj2, hj3⟩
            by_cases hji : j = i
            · rw [hji, hget] at hj3
              exact absurd hj3 hfail
            · exact ⟨j, by omega, hj2, hj3⟩

/-! ## Claims -/

/-- C1: starting from the empty table of vlclua_fd_init, mapping in order a list
of n ≤ 64 pairwise distinct C ints, none of which is 0, 1 or 2 (realloc
succeeding), returns the virtual descriptors 3, 4, ..., n+2 in that order (all
distinct and at least 3), and afterwards vlclua_fd_get (3 + i) is the i-th
mapped descriptor for every i < n. -/
theorem C1_map_sequence (ndebug : Bool) (s0 : intf_sys_t) (fds : List Int)
    (hlen : fds.length ≤ 64) (hnd : fds.Nodup) (hint : ∀ fd ∈ fds, is_int fd)
    (hres : ∀ fd ∈ fds, ¬ reserved fd) :
    ∃ sys vs, map_seq ndebug (vlclua_fd_init s0) fds = some (sys, vs) ∧
      vs = (List.range fds.length).map (fun i => ((3 + i : Nat) : Int)) ∧
      vs.Nodup ∧ (∀ v ∈ vs, 3 ≤ v) ∧
      sys.fdc = fds.length ∧
      ∀ i (h : i < fds.length), vlclua_fd_get sys (3 + i) = fds[i] := by
  have hwf0 : wf (vlclua_fd_init s0) := by simp [wf, vlclua_fd_init]
  have hent0 : entries (vlclua_fd_init s0) = [] := by simp [entries, vlclua_fd_init]
  have hfdc0 : (vlclua_fd_init s0).fdc = 0 := rfl
  obtain ⟨sys, hseq, hent, hwf⟩ := map_seq_spec ndebug fds (vlclua_fd_init s0) hwf0
    (by rw [hfdc0]; omega)
    (fun fd hfd h3 => hres fd hfd ((to_unsigned_lt_three fd (hint fd hfd)).1 h3))
    (by rw [hent0]; simpa using hnd)
  rw [hent0, List.nil_append] at hent
  rw [hfdc0] at hseq
  have hvs : (List.range' (3 + 0) fds.length).map Int.ofNat
      = (List.range fds.length).map (fun i => ((3 + i : Nat) : Int)) := by
    rw [List.range'_eq_map_range, List.map_map]
    rfl
  refine ⟨sys, _, hseq, hvs, ?_, ?_, ?_, ?_⟩
  · rw [hvs]
    apply List.Nodup.map _ (List.nodup_range _)
    intro a b hab
    simp only [Nat.cast_add, Nat.cast_ofNat] at hab
    omega
  · rw [hvs]
    intro v hv
    simp only [List.mem_map, List.mem_range] at hv
    obtain ⟨i, _, hi⟩ := hv
    rw [← hi]
    simp only [Nat.cast_add, Nat.cast_ofNat]
    omega
  · rw [← length_entries sys hwf, hent]
  · intro i h
    rw [Nat.add_comm 3 i, get_eq sys hwf i, hent, List.getElem?_eq_getElem h]
    rfl

/-- Instance of C1 on the descriptors 10, 11, 12. -/
theorem C1_map_sequence_witness :
    ([10, 11, 12] : List Int).length ≤ 64 ∧ ([10, 11, 12] : List Int).Nodup ∧
    (∀ fd ∈ ([10, 11, 12] : List Int), is_int fd) ∧
    (∀ fd ∈ ([10, 11, 12] : List Int), ¬ reserved fd) ∧
    ∃ sys vs, map_seq false (vlclua_fd_init { fdv := [], fdc := 0 }) [10, 11, 12]
        = some (sys, vs) ∧
      vs = (List.range ([10, 11, 12] : List Int).length).map
        (fun i => ((3 + i : Nat) : Int)) ∧
      vs.Nodup ∧ (∀ v ∈ vs, 3 ≤ v) ∧
      sys.fdc = ([10, 11, 12] : List Int).length ∧
      ∀ i (h : i < ([10, 11, 12] : List Int).length),
        vlclua_fd_get sys (3 + i) = ([10, 11, 12] : List Int)[i] :=
  ⟨by decide, by decide, by decide, by decide,
    C1_map_sequence false { fdv := [], fdc := 0 } [10, 11, 12]
      (by decide) (by decide) (by decide) (by decide)⟩

/-- C2: for every table and every C int fd that is not tracked (realloc
succeeding), vlclua_fd_map returns -1 exactly when fd is 0, 1 or 2 or the table
holds 64 entries (fdc ≥ 64; on tables within the capacity, fdc = 64); when it
returns -1 the state is unchanged (entries and count); otherwise fd is appended
at the end and the result is 3 + the previous count. -/
theorem C2_map_failure (ndebug : Bool) (sys : intf_sys_t) (hwf : wf sys) (fd : Int)
    (hint : is_int fd) (hnew : fd ∉ entries sys) :
    ∃ sys1 v, vlclua_fd_map ndebug true sys fd = some (sys1, v) ∧
      (v = -1 ↔ (reserved fd ∨ 64 ≤ sys.fdc)) ∧
      (sys.fdc ≤ 64 → (v = -1 ↔ (reserved fd ∨ sys.fdc = 64))) ∧
      (v = -1 → sys1 = sys ∧ entries sys1 = entries sys ∧ sys1.fdc = sys.fdc) ∧
      (v ≠ -1 → entries sys1 = entries sys ++ [fd] ∧ sys1.fdc = sys.fdc + 1 ∧
        v = 3 + (sys.fdc : Int)) := by
  by_cases hr : reserved fd
  · refine ⟨sys, -1, map_reserved ndebug true sys fd
      ((to_unsigned_lt_three fd hint).2 hr), ?_, ?_, ?_, ?_⟩
    · simp [hr]
    · intro _; simp [hr]
    · intro _; exact ⟨rfl, rfl, rfl⟩
    · intro h; exact absurd rfl h
  · by_cases hfull : 64 ≤ sys.fdc
    · refine ⟨sys, -1, map_full ndebug true sys hwf fd (Or.inr hnew) hfull, ?_, ?_, ?_, ?_⟩
      · simp [hfull]
      · intro hle
        have : sys.fdc = 64 := by omega
        simp [this]
      · intro _; exact ⟨rfl, rfl, rfl⟩
      · intro h; exact absurd rfl h
    · have h3 : ¬ to_unsigned fd < 3 := fun h => hr ((to_unsigned_lt_three fd hint).1 h)
      have hspec := map_state_spec sys hwf fd
      have hv : ((3 + sys.fdc : Nat) : Int) ≠ -1 := by omega
      refine ⟨_, _, map_append ndebug sys hwf fd h3 (Or.inr hnew) (by omega), ?_, ?_, ?_, ?_⟩
      · constructor
        · intro h; exact absurd h hv
        · intro h
          rcases h with h | h
          · exact absurd h hr
          · exact absurd h hfull
      · intro _
        constructor
        · intro h; exact absurd h hv
        · intro h
          rcases h with h | h
          · exact absurd h hr
          · omega
      · intro h; exact absurd h hv
      · intro _
        refine ⟨hspec.1, rfl, ?_⟩
        simp

/-- Instance of C2 on the table holding 10 and 11 and the descriptor 12. -/
theorem C2_map_failure_witness :
    wf { fdv := [10, 11], fdc := 2 } ∧ is_int 12 ∧
    (12 : Int) ∉ entries { fdv := [10, 11], fdc := 2 } ∧
    ∃ sys1 v, vlclua_fd_map false true { fdv := [10, 11], fdc := 2 } 12 = some (sys1, v) ∧
      (v = -1 ↔ (reserved 12 ∨ 64 ≤ (2 : Nat))) ∧
      ((2 : Nat) ≤ 64 → (v = -1 ↔ (reserved 12 ∨ (2 : Nat) = 64))) ∧
      (v = -1 → sys1 = { fdv := [10, 11], fdc := 2 } ∧
        entries sys1 = entries { fdv := [10, 11], fdc := 2 } ∧ sys1.fdc = 2) ∧
      (v ≠ -1 → entries sys1 = entries { fdv := [10, 11], fdc := 2 } ++ [12] ∧
        sys1.fdc = 2 + 1 ∧ v = 3 + ((2 : Nat) : Int)) :=
  ⟨by decide, by decide, by decide,
    C2_map_failure false { fdv := [10, 11], fdc := 2 } (by decide) 12 (by decide) (by decide)⟩

/-- Concrete refutation of C4 as stated: in the table holding 10 and 11,
vlclua_fd_unmap_safe 3 closes 10 and vlclua_fd_get 3 then returns 11, the
descriptor that moved down from virtual descriptor 4, and not -1. -/
theorem C4_counterexample :
    vlclua_fd_unmap_safe false { fdv := [10, 11], fdc := 2 } 3
      = some ({ fdv := [11, 11], fdc := 1 }, [Call.net_Close 10]) ∧
    vlclua_fd_get { fdv := [11, 11], fdc := 1 } 3 = 11 ∧
    vlclua_fd_get { fdv := [11, 11], fdc := 1 } 3 ≠ -1 := by
  decide

/-- C4 as amended: for every table and every tracked virtual descriptor v
(3 ≤ v < 3 + fdc; in builds with asserts: a table without duplicates), after
vlclua_fd_unmap_safe v the call vlclua_fd_get v returns -1 when v was the last
tracked virtual descriptor (v = fdc + 2), and otherwise returns the descriptor
that was at v + 1 before (the entries are compacted); in a table without
duplicates that value differs from the descriptor unmapped from v. -/
theorem C4_unmap_safe_then_get (ndebug : Bool) (sys : intf_sys_t) (hwf : wf sys) (v : Nat)
    (h3 : 3 ≤ v) (hv : v < 3 + sys.fdc) (hpre : ndebug = true ∨ (entries sys).Nodup) :
    ∃ sys1 calls, vlclua_fd_unmap_safe ndebug sys v = some (sys1, calls) ∧
      (v = sys.fdc + 2 → vlclua_fd_get sys1 v = -1) ∧
      (v < sys.fdc + 2 → vlclua_fd_get sys1 v = vlclua_fd_get sys (v + 1)) ∧
      ((entries sys).Nodup → v < sys.fdc + 2 →
        vlclua_fd_get sys1 v ≠ vlclua_fd_get sys v) := by
  obtain ⟨k, rfl⟩ : ∃ k, v = k + 3 := ⟨v - 3, by omega⟩
  have hk : k < sys.fdc := by omega
  obtain ⟨sys1, hun, hent, hwf1, hfdc⟩ := unmap_evict_ex ndebug sys hwf k hk hpre
  have hshift : vlclua_fd_get sys1 (k + 3) = vlclua_fd_get sys (k + 3 + 1) := by
    rw [show k + 3 + 1 = (k + 1) + 3 by omega, get_eq _ hwf1 k, get_eq sys hwf (k + 1), hent,
      List.getElem?_eraseIdx_of_ge _ _ _ (Nat.le_refl k)]
  refine ⟨sys1,
    (if vlclua_fd_get sys (k + 3) ≠ -1 then [Call.net_Close (vlclua_fd_get sys (k + 3))]
      else []),
    by simp only [vlclua_fd_unmap_safe, hun], ?_, ?_, ?_⟩
  · intro hlast
    rw [get_eq _ hwf1 k, List.getElem?_eq_none (by rw [length_entries _ hwf1]; omega)]
    rfl
  · intro _
    exact hshift
  · intro hnd hlt heq
    rw [hshift] at heq
    have h1 := get_at sys hwf (k + 1) (by omega)
    have h2 := get_at sys hwf k hk
    rw [show k + 1 + 3 = k + 3 + 1 by omega, heq] at h1
    have := nodup_index_unique _ hnd _ _ _ h1 h2
    omega

/-- Instance of the amended C4 on the table holding 10 and 11 and the virtual
descriptor 3. -/
theorem C4_unmap_safe_then_get_witness :
    wf { fdv := [10, 11], fdc := 2 } ∧ 3 ≤ 3 ∧ 3 < 3 + 2 ∧
    (false = true ∨ (entries { fdv := [10, 11], fdc := 2 }).Nodup) ∧
    ∃ sys1 calls, vlclua_fd_unmap_safe false { fdv := [10, 11], fdc := 2 } 3
        = some (sys1, calls) ∧
      (3 = 2 + 2 → vlclua_fd_get sys1 3 = -1) ∧
      (3 < 2 + 2 →
        vlclua_fd_get sys1 3 = vlclua_fd_get { fdv := [10, 11], fdc := 2 } (3 + 1)) ∧
      ((entries { fdv := [10, 11], fdc := 2 }).Nodup → 3 < 2 + 2 →
        vlclua_fd_get sys1 3 ≠ vlclua_fd_get { fdv := [10, 11], fdc := 2 } 3) :=
  ⟨by decide, by decide, by decide, Or.inr (by decide),
    C4_unmap_safe_then_get false { fdv := [10, 11], fdc := 2 } (by decide) 3 (by decide)
      (by decide) (Or.inr (by decide))⟩

/-- C5: for every table and every C int fd that is not 0, 1 or 2 and is not
tracked, if vlclua_fd_map fd succeeds and returns v then vlclua_fd_get_lua fd
returns that v; the following vlclua_fd_unmap v returns, the entries are again
those before the map, and vlclua_fd_get_lua fd is the failure value -1. -/
theorem C5_get_lua_roundtrip (ndebug realloc_ok : Bool) (sys : intf_sys_t) (hwf : wf sys)
    (fd : Int) (hint : is_int fd) (hres : ¬ reserved fd) (hnew : fd ∉ entries sys)
    (sys1 : intf_sys_t) (v : Int)
    (hmap : vlclua_fd_map ndebug realloc_ok sys fd = some (sys1, v)) (hv : v ≠ -1) :
    vlclua_fd_get_lua sys1 fd = v ∧
    ∃ sys2, vlclua_fd_unmap ndebug sys1 (to_unsigned v) = some sys2 ∧
      entries sys2 = entries sys ∧ vlclua_fd_get_lua sys2 fd = -1 := by
  have h3 : ¬ to_unsigned fd < 3 := fun h => hres ((to_unsigned_lt_three fd hint).1 h)
  rcases map_inv_ex ndebug realloc_ok sys sys1 fd v hwf hmap with
    ⟨_, h⟩ | ⟨hlt, _, _, hent, hwf1, hfdc, hvv⟩
  · exact absurd h hv
  · have hget := get_lua_last sys1 hwf1 (entries sys) fd hent h3 hnew (by omega)
    have hveq : v = ((sys1.fdc + 2 : Nat) : Int) := by
      rw [hvv, hfdc]; congr 1; omega
    obtain ⟨sys2, hun, hent2, hwf2, _⟩ :=
      unmap_last ndebug sys1 hwf1 (entries sys) fd hent (Or.inr hnew)
    refine ⟨by rw [hget, hveq], sys2, ?_, hent2, ?_⟩
    · rw [hveq, to_unsigned_natCast _ (by omega)]
      exact hun
    · exact get_lua_untracked sys2 hwf2 fd h3 (by rw [hent2]; exact hnew)

/-- Instance of C5 on the table holding 10 and 11 and the descriptor 12. -/
theorem C5_get_lua_roundtrip_witness :
    wf { fdv := [10, 11], fdc := 2 } ∧ is_int 12 ∧ ¬ reserved 12 ∧
    (12 : Int) ∉ entries { fdv := [10, 11], fdc := 2 } ∧
    vlclua_fd_map false true { fdv := [10, 11], fdc := 2 } 12
      = some ({ fdv := [10, 11, 12], fdc := 3 }, 5) ∧
    (5 : Int) ≠ -1 ∧
    vlclua_fd_get_lua { fdv := [10, 11, 12], fdc := 3 } 12 = 5 ∧
    ∃ sys2, vlclua_fd_unmap false { fdv := [10, 11, 12], fdc := 3 } (to_unsigned 5)
        = some sys2 ∧
      entries sys2 = entries { fdv := [10, 11], fdc := 2 } ∧
      vlclua_fd_get_lua sys2 12 = -1 :=
  ⟨by decide, by decide, by decide, by decide, by decide, by decide,
    C5_get_lua_roundtrip false true { fdv := [10, 11], fdc := 2 } (by decide) 12
      (by decide) (by decide) (by decide) { fdv := [10, 11, 12], fdc := 3 } 5
      (by decide) (by decide)⟩

/-- C6, behaviour of the code: in every state, vlclua_net_close (the script
level close, through vlclua_fd_unmap_safe) called on 0, 1 or 2 leaves the table
as it is and issues net_Close on the real descriptor 0, 1 or 2; and
vlclua_fd_map_safe called on 0 refuses the descriptor and issues net_Close 0. -/
theorem C6_std_streams_closed (ndebug realloc_ok : Bool) (sys : intf_sys_t) :
    vlclua_net_close ndebug sys 0 = some (sys, [Call.net_Close 0]) ∧
    vlclua_net_close ndebug sys 1 = some (sys, [Call.net_Close 1]) ∧
    vlclua_net_close ndebug sys 2 = some (sys, [Call.net_Close 2]) ∧
    vlclua_fd_unmap_safe ndebug sys 0 = some (sys, [Call.net_Close 0]) ∧
    vlclua_fd_map_safe ndebug realloc_ok sys 0 = some (sys, -1, [Call.net_Close 0]) := by
  refine ⟨?_, ?_, ?_, ?_, ?_⟩
  · simp [vlclua_net_close, vlclua_fd_unmap_safe, vlclua_fd_unmap, vlclua_fd_get,
      to_unsigned, to_int]
  · simp [vlclua_net_close, vlclua_fd_unmap_safe, vlclua_fd_unmap, vlclua_fd_get,
      to_unsigned, to_int]
  · simp [vlclua_net_close, vlclua_fd_unmap_safe, vlclua_fd_unmap, vlclua_fd_get,
      to_unsigned, to_int]
  · simp [vlclua_fd_unmap_safe, vlclua_fd_unmap, vlclua_fd_get, to_int]
  · simp [vlclua_fd_map_safe, vlclua_fd_map, to_unsigned]

/-- Concrete refutation of C7 as stated: on the table holding 5, 6, 7 the three
close calls are issued, but the table is not left empty: vlclua_fd_destroy
assigns neither field, so fdc is still 3 afterwards (and fdv points to the freed
block). -/
theorem C7_counterexample :
    (vlclua_fd_destroy { fdv := [5, 6, 7], fdc := 3 }).calls
      = [Call.net_Close 5, Call.net_Close 6, Call.net_Close 7] ∧
    (vlclua_fd_destroy { fdv := [5, 6, 7], fdc := 3 }).sys.fdc = 3 ∧
    (vlclua_fd_destroy { fdv := [5, 6, 7], fdc := 3 }).sys.fdc ≠ 0 ∧
    (vlclua_fd_destroy { fdv := [5, 6, 7], fdc := 3 }).freed = [5, 6, 7] := by
  decide

/-- C7 as amended: for every table with entries e_0, ..., e_(n-1),
vlclua_fd_destroy issues exactly the n calls net_Close e_0, ..., net_Close e_(n-1),
in that order and no other, then frees the block fdv; it does not reset the
table: the fields fdv and fdc are left as they were (fdc is still n). -/
theorem C7_destroy_closes_all (sys : intf_sys_t) (hwf : wf sys) :
    (vlclua_fd_destroy sys).calls = (entries sys).map Call.net_Close ∧
    (vlclua_fd_destroy sys).calls.length = sys.fdc ∧
    (vlclua_fd_destroy sys).freed = sys.fdv ∧
    (vlclua_fd_destroy sys).sys = sys ∧
    (vlclua_fd_destroy sys).sys.fdc = sys.fdc := by
  have h : (vlclua_fd_destroy sys).calls = (entries sys).map Call.net_Close := by
    simp only [vlclua_fd_destroy]
    rw [destroy_loop_eq sys sys.fdc 0 (by unfold wf at hwf; omega)]
    simp [entries]
  refine ⟨h, ?_, rfl, rfl, rfl⟩
  rw [h, List.length_map, length_entries sys hwf]

/-- Instance of the amended C7 on a table with the three entries 5, 6, 7:
exactly three close calls. -/
theorem C7_destroy_closes_all_witness :
    wf { fdv := [5, 6, 7], fdc := 3 } ∧
    (vlclua_fd_destroy { fdv := [5, 6, 7], fdc := 3 }).calls
      = (entries { fdv := [5, 6, 7], fdc := 3 }).map Call.net_Close ∧
    (vlclua_fd_destroy { fdv := [5, 6, 7], fdc := 3 }).calls.length = 3 ∧
    (vlclua_fd_destroy { fdv := [5, 6, 7], fdc := 3 }).freed = [5, 6, 7] ∧
    (vlclua_fd_destroy { fdv := [5, 6, 7], fdc := 3 }).sys = { fdv := [5, 6, 7], fdc := 3 } ∧
    (vlclua_fd_destroy { fdv := [5, 6, 7], fdc := 3 }).sys.fdc = 3 :=
  ⟨by decide, C7_destroy_closes_all { fdv := [5, 6, 7], fdc := 3 } (by decide)⟩

/-- C9, behaviour of the code: when net_Accept or net_Connect fails (-1) on the
empty table, vlclua_net_accept and vlclua_net_connect_tcp track the value -1 as
an entry, push the virtual descriptor 3 and close nothing; a second failure
trips the assert of vlclua_fd_map in builds with asserts, and is tracked again
(virtual descriptor 4) in builds without. -/
theorem C9_provider_failure_tracked (ndebug : Bool) (s0 : intf_sys_t) :
    vlclua_net_accept ndebug true (vlclua_fd_init s0) (-1)
      = some ({ fdv := [-1], fdc := 1 }, 3, []) ∧
    vlclua_net_connect_tcp ndebug true (vlclua_fd_init s0) (-1)
      = some ({ fdv := [-1], fdc := 1 }, 3, []) ∧
    vlclua_net_accept false true { fdv := [-1], fdc := 1 } (-1) = none ∧
    vlclua_net_accept true true { fdv := [-1], fdc := 1 } (-1)
      = some ({ fdv := [-1, -1], fdc := 2 }, 4, []) := by
  have hinit : vlclua_fd_init s0 = { fdv := [], fdc := 0 } := rfl
  rw [hinit]
  refine ⟨?_, ?_, by decide, by decide⟩
  · cases ndebug <;> decide
  · cases ndebug <;> decide

/-- C8: for every table T and every listen group returned by net_ListenTCP whose
members are C ints, pairwise distinct and not tracked in T, vlclua_net_listen_tcp
returns; it raises the Lua error exactly when vlclua_fd_map fails for some member
(the member is 0, 1 or 2, the capacity of 64 is reached, or realloc fails); in
that case, after the rollback loop, the entries are exactly those of T (same
order, same count) and the only provider call is one net_ListenClose of the
group; otherwise all members are appended in order and nothing is closed. -/
theorem C8_listen_all_or_nothing (ndebug : Bool) (realloc_ok : Nat → Bool)
    (sys : intf_sys_t) (hwf : wf sys) (pi_fd : List Int)
    (hint : ∀ fd ∈ pi_fd, is_int fd) (hterm : ∀ fd ∈ pi_fd, fd ≠ -1) (hnd : pi_fd.Nodup)
    (hnew : ∀ fd ∈ pi_fd, fd ∉ entries sys) :
    ∃ sys1 calls ret,
      vlclua_net_listen_tcp ndebug realloc_ok sys (some pi_fd) = some (sys1, calls, ret) ∧
      (ret = LuaReturn.luaL_error ↔ ∃ j, j < pi_fd.length ∧
        (reserved (pi_fd.getD j (-1)) ∨ 64 ≤ sys.fdc + j ∨ realloc_ok j = false)) ∧
      (ret = LuaReturn.luaL_error →
        entries sys1 = entries sys ∧ sys1.fdc = sys.fdc ∧
        calls = [Call.net_ListenClose pi_fd]) ∧
      (ret ≠ LuaReturn.luaL_error →
        entries sys1 = entries sys ++ pi_fd ∧ calls = [] ∧ ret = LuaReturn.results 1) := by
  obtain ⟨s1, calls, ret, hloop, hiff, herr, hsucc⟩ :=
    listen_loop_spec ndebug realloc_ok pi_fd (entries sys) hint hterm hnd hnew
      (pi_fd.length + 1) 0 sys (by omega) (Nat.zero_le _) hwf (by simp)
      (fun h => absurd h (Nat.lt_irrefl 0)) (by simp)
  have hlen := length_entries sys hwf
  refine ⟨s1, calls, ret, hloop, ?_, ?_, ?_⟩
  · rw [hiff, hlen]
    constructor
    · rintro ⟨j, _, h2, h3⟩; exact ⟨j, h2, h3⟩
    · rintro ⟨j, h2, h3⟩; exact ⟨j, Nat.zero_le j, h2, h3⟩
  · intro h
    obtain ⟨h1, h2, h3⟩ := herr h
    exact ⟨h1, by rw [← length_entries s1 h2, h1, hlen], h3⟩
  · intro h
    obtain ⟨h1, _, h3, h4⟩ := hsucc h
    exact ⟨h1, h3, h4⟩

/-- Instance of C8: the table holds 10 and 11, the group is 20, 21, 2; the third
member is reserved, the two admitted members are rolled back. -/
theorem C8_listen_all_or_nothing_witness :
    wf { fdv := [10, 11], fdc := 2 } ∧ (∀ fd ∈ ([20, 21, 2] : List Int), is_int fd) ∧
    (∀ fd ∈ ([20, 21, 2] : List Int), fd ≠ -1) ∧ ([20, 21, 2] : List Int).Nodup ∧
    (∀ fd ∈ ([20, 21, 2] : List Int), fd ∉ entries { fdv := [10, 11], fdc := 2 }) ∧
    vlclua_net_listen_tcp false (fun _ => true) { fdv := [10, 11], fdc := 2 }
        (some [20, 21, 2])
      = some ({ fdv := [10, 11, 20, 21], fdc := 2 }, [Call.net_ListenClose [20, 21, 2]],
          LuaReturn.luaL_error) ∧
    ∃ sys1 calls ret,
      vlclua_net_listen_tcp false (fun _ => true) { fdv := [10, 11], fdc := 2 }
          (some [20, 21, 2]) = some (sys1, calls, ret) ∧
      (ret = LuaReturn.luaL_error ↔ ∃ j, j < ([20, 21, 2] : List Int).length ∧
        (reserved (([20, 21, 2] : List Int).getD j (-1)) ∨ 64 ≤ 2 + j ∨
          (fun _ => true) j = false)) ∧
      (ret = LuaReturn.luaL_error →
        entries sys1 = entries { fdv := [10, 11], fdc := 2 } ∧ sys1.fdc = 2 ∧
        calls = [Call.net_ListenClose [20, 21, 2]]) ∧
      (ret ≠ LuaReturn.luaL_error →
        entries sys1 = entries { fdv := [10, 11], fdc := 2 } ++ [20, 21, 2] ∧ calls = [] ∧
        ret = LuaReturn.results 1) :=
  ⟨by decide, by decide, by decide, by decide, by decide, by decide,
    C8_listen_all_or_nothing false (fun _ => true) { fdv := [10, 11], fdc := 2 }
      (by decide) [20, 21, 2] (by decide) (by decide) (by decide) (by decide)⟩

/-- C10: every state reachable from vlclua_fd_init by calls of vlclua_fd_map
(each on a descriptor that is not tracked at that time, any realloc outcome), of
vlclua_fd_unmap and of vlclua_fd_unmap_safe with arbitrary arguments has at most
64 entries and holds no descriptor value more than once (and fdc stays within
the block). -/
theorem C10_table_invariant (ndebug : Bool) (sys : intf_sys_t) (h : Reachable ndebug sys) :
    sys.fdc ≤ 64 ∧ (entries sys).length ≤ 64 ∧ (entries sys).Nodup ∧ wf sys := by
  have key : sys.fdc ≤ 64 ∧ (entries sys).Nodup ∧ wf sys := by
    induction h with
    | init s0 => exact ⟨Nat.zero_le _, by simp [entries, vlclua_fd_init], by simp [wf, vlclua_fd_init]⟩
    | map s s1 fd v ok _ hnew hmap ih =>
      obtain ⟨hc, hnd, hwf⟩ := ih
      rcases map_inv_ex ndebug ok s s1 fd v hwf hmap with
        ⟨h1, _⟩ | ⟨hlt, _, _, hent, hwf1, hfdc, _⟩
      · rw [h1]; exact ⟨hc, hnd, hwf⟩
      · refine ⟨by omega, ?_, hwf1⟩
        rw [hent, List.nodup_append]
        refine ⟨hnd, List.nodup_singleton fd, ?_⟩
        intro a ha hb
        rw [List.mem_singleton.1 hb] at ha
        exact hnew ha
    | unmap s s1 idx _ hun ih =>
      obtain ⟨hc, hnd, hwf⟩ := ih
      rcases unmap_inv_ex ndebug s s1 idx hwf hun with h1 | ⟨_, _, hent, hwf1, hfdc⟩
      · rw [h1]; exact ⟨hc, hnd, hwf⟩
      · exact ⟨by omega, by rw [hent]; exact List.Nodup.eraseIdx _ hnd, hwf1⟩
    | unmap_safe s s1 idx calls _ hun ih =>
      obtain ⟨hc, hnd, hwf⟩ := ih
      have hun1 : vlclua_fd_unmap ndebug s idx = some s1 := by
        unfold vlclua_fd_unmap_safe at hun
        cases hu : vlclua_fd_unmap ndebug s idx with
        | none => rw [hu] at hun; exact absurd hun (by simp)
        | some s2 =>
          rw [hu] at hun
          simp only [Option.some.injEq, Prod.mk.injEq] at hun
          rw [hun.1]
      rcases unmap_inv_ex ndebug s s1 idx hwf hun1 with h1 | ⟨_, _, hent, hwf1, hfdc⟩
      · rw [h1]; exact ⟨hc, hnd, hwf⟩
      · exact ⟨by omega, by rw [hent]; exact List.Nodup.eraseIdx _ hnd, hwf1⟩
  exact ⟨key.1, by rw [length_entries sys key.2.2]; exact key.1, key.2.1, key.2.2⟩

/-- Instance of C10: the state reached by mapping 10 and 11 and unmapping the
virtual descriptor 3. -/
theorem C10_table_invariant_witness :
    Reachable false { fdv := [11, 11], fdc := 1 } ∧
    (1 ≤ 64 ∧ (entries { fdv := [11, 11], fdc := 1 }).length ≤ 64 ∧
      (entries { fdv := [11, 11], fdc := 1 }).Nodup ∧ wf { fdv := [11, 11], fdc := 1 }) :=
  have hr : Reachable false { fdv := [11, 11], fdc := 1 } :=
    Reachable.unmap { fdv := [10, 11], fdc := 2 } _ 3
      (Reachable.map { fdv := [10], fdc := 1 } _ 11 4 true
        (Reachable.map (vlclua_fd_init { fdv := [], fdc := 0 }) _ 10 3 true
          (Reachable.init { fdv := [], fdc := 0 }) (by decide) (by decide))
        (by decide) (by decide))
      (by decide)
  ⟨hr, C10_table_invariant false { fdv := [11, 11], fdc := 1 } hr⟩

end VlcLuaNet
